import Mathlib

/-!
Verification of the bboltkv typed key-value façade (src/bboltkv.go).

The repository is a thin adaptation layer over two external collaborators:
the bbolt transactional engine and the gob codec.  Following the spec (§2,
§6), the engine's bucket is modelled as a byte-lexicographically sorted
association list of byte-string keys to byte-string values with a
cursor-based seek, `Update` running a function atomically with rollback on
error, and `View` running a read-only function.  The codec is modelled as a
pair of caller-supplied functions (gob is self-describing and fallible, so
encoding and decoding each return an `Except`).  Everything in `Store.Put`,
`Store.Get`, `Store.Delete`, `Open`, `GetBucketName` is translated directly
from src/bboltkv.go.
-/

namespace Bboltkv

/-- Byte strings: keys and encoded values of the underlying bucket. -/
abbrev Bytes := List Nat

/-- Modelled from the spec: the external engine iterates keys in
byte-lexicographic order (spec §4.3).  `bytesLt a b` is strict
byte-lexicographic comparison. -/
def bytesLt : Bytes → Bytes → Bool
  | [], [] => false
  | [], _ :: _ => true
  | _ :: _, [] => false
  | a :: as, b :: bs =>
    if a < b then true
    else if b < a then false
    else bytesLt as bs

/-- Modelled from the spec: the engine's named collection ("bucket") of
byte-string key to byte-string value pairs (spec §2), represented as an
association list kept sorted by `bytesLt`. -/
abbrev Bucket := List (Bytes × Bytes)

/-- Keys of the bucket are strictly increasing in byte-lexicographic order;
this is the engine invariant the seek-based lookup relies on (spec §4.3). -/
def SortedBucket (b : Bucket) : Prop :=
  List.Pairwise (fun e₁ e₂ => bytesLt e₁.1 e₂.1 = true) b

/-- Sortedness of a concrete bucket can be decided by evaluation. -/
def decSortedBucket : (b : Bucket) → Decidable (SortedBucket b)
  | [] => isTrue List.Pairwise.nil
  | e :: rest =>
    match List.decidableBAll (fun e₂ => bytesLt e.1 e₂.1 = true) rest,
        decSortedBucket rest with
    | isTrue h1, isTrue h2 => isTrue (List.pairwise_cons.mpr ⟨h1, h2⟩)
    | isFalse h1, _ => isFalse (fun hc => h1 (List.pairwise_cons.mp hc).1)
    | _, isFalse h2 => isFalse (fun hc => h2 (List.pairwise_cons.mp hc).2)

instance (b : Bucket) : Decidable (SortedBucket b) :=
  decSortedBucket b

/-- Modelled from the spec: `Cursor.Seek` positions a cursor at the first
stored key greater than or equal to the requested key (spec §4.3), returning
`none` (Go: `k == nil`) when no such key exists. -/
def seek : Bucket → Bytes → Option (Bytes × Bytes)
  | [], _ => none
  | (k, v) :: rest, key => if bytesLt k key then seek rest key else some (k, v)

/-- Modelled from the spec: `Cursor.Delete` after a `Seek` removes the entry
the cursor is positioned on, i.e. the first entry whose key is greater than
or equal to the sought key (spec §4.4). -/
def cursorDelete : Bucket → Bytes → Bucket
  | [], _ => []
  | (k, v) :: rest, key =>
    if bytesLt k key then (k, v) :: cursorDelete rest key else rest

/-- Modelled from the spec: the engine's `Bucket.Put` upserts the encoded
bytes under the key, overwriting any prior value for that key (spec §4.2),
keeping the bucket sorted. -/
def bucketPut : Bucket → Bytes → Bytes → Bucket
  | [], key, val => [(key, val)]
  | (k, v) :: rest, key, val =>
    if bytesLt key k then (key, val) :: (k, v) :: rest
    else if k = key then (key, val) :: rest
    else (k, v) :: bucketPut rest key val

/-- Direct exact-match lookup in the key-to-bytes mapping: the abstract view
of the collection, used to compare the seek-based implementation against. -/
def lookup : Bucket → Bytes → Option Bytes
  | [], _ => none
  | (k, v) :: rest, key => if k = key then some v else lookup rest key

/-- Errors surfaced by the façade: `notFound` and `badValue` are the two
locally synthesised errors (`ErrNotFound`, `ErrBadValue`); `codecError`
carries a codec failure verbatim (spec §7). -/
inductive KVError where
  | notFound
  | badValue
  | codecError (msg : String)
deriving DecidableEq, Repr

/-- A `Store` owns the contents of its one collection and the collection's
name, mirroring the Go struct (db handle plus `bucketName`). -/
structure Store where
  bucket : Bucket
  bucketName : Bytes
deriving DecidableEq, Repr

/-- Modelled from the spec: `db.Update` runs the function as an atomic write
transaction; on error the transaction is rolled back and the collection is
unchanged (spec §4.2, §7 auto-rollback). -/
def dbUpdate (st : Bucket) (fn : Bucket → Except KVError Bucket) :
    Option KVError × Bucket :=
  match fn st with
  | .error e => (some e, st)
  | .ok b => (none, b)

/-- Modelled from the spec: `db.View` runs the function as a read-only
transaction; the collection cannot be modified (spec §4.3). -/
def dbView (st : Bucket) (fn : Bucket → Except KVError α) :
    Except KVError α × Bucket :=
  (fn st, st)

/-- UTF-8 encoding of a single Unicode code point. -/
def utf8Bytes (c : Nat) : Bytes :=
  if c < 128 then [c]
  else if c < 2048 then [192 + c / 64, 128 + c % 64]
  else if c < 65536 then [224 + c / 4096, 128 + c / 64 % 64, 128 + c % 64]
  else [240 + c / 262144, 128 + c / 4096 % 64, 128 + c / 64 % 64, 128 + c % 64]

/-- Go's `[]byte(key)` conversion of a string key to its UTF-8 bytes. -/
def strBytes (s : String) : Bytes :=
  s.data.foldr (fun c acc => utf8Bytes c.toNat ++ acc) []

/-- Translation of `Store.Put` (src/bboltkv.go:65-76): a nil value is
rejected with `ErrBadValue` before encoding; an encoding failure is returned
verbatim without opening a write transaction; otherwise the encoded bytes
are upserted under the key inside `db.Update`.  The nil Go `interface{}`
argument is `none`; the codec is the parameter `enc`. -/
def Store.Put (s : Store) (enc : V → Except String Bytes) (key : String)
    (value : Option V) : Option KVError × Store :=
  match value with
  | none => (some .badValue, s)
  | some v =>
    match enc v with
    | .error e => (some (.codecError e), s)
    | .ok buf =>
      let (e, b) := dbUpdate s.bucket (fun b => .ok (bucketPut b (strBytes key) buf))
      (e, { s with bucket := b })

/-- Translation of `Store.Get` (src/bboltkv.go:99-111): inside `db.View`,
seek to the first key greater than or equal to `key`; if there is none or it
is not an exact match, return `ErrNotFound`; if the destination is the nil
sentinel (`discard = true`), succeed without decoding; otherwise decode the
stored bytes, propagating any decode error verbatim.  The result carries the
decoded value (`some`) or `none` for the discard path. -/
def Store.Get (s : Store) (dec : Bytes → Except String V) (key : String)
    (discard : Bool) : Except KVError (Option V) × Store :=
  let (r, b) := dbView s.bucket (fun b =>
    match seek b (strBytes key) with
    | none => .error .notFound
    | some (k, v) =>
      if k = strBytes key then
        if discard then .ok none
        else
          match dec v with
          | .error e => .error (.codecError e)
          | .ok x => .ok (some x)
      else .error .notFound)
  (r, { s with bucket := b })

/-- Translation of `Store.Delete` (src/bboltkv.go:117-126): inside
`db.Update`, seek for an exact match on `key`; if absent return
`ErrNotFound`, otherwise delete the entry at the cursor. -/
def Store.Delete (s : Store) (key : String) : Option KVError × Store :=
  let (e, b) := dbUpdate s.bucket (fun b =>
    match seek b (strBytes key) with
    | none => .error .notFound
    | some (k, _) =>
      if k = strBytes key then .ok (cursorDelete b (strBytes key))
      else .error .notFound)
  (e, { s with bucket := b })

/-- Translation of `Open` (src/bboltkv.go:35-52), restricted to the
successful path: the named collection is created if missing (an absent
collection starts empty) and the store records `[]byte(bucketName)`.  The
`path` argument selects the backing file; file handling itself belongs to
the external engine. -/
def Open (_path : String) (existing : Option Bucket) (bucketName : String) :
    Store :=
  { bucket := existing.getD [], bucketName := strBytes bucketName }

/-- Translation of `Store.GetBucketName` (src/bboltkv.go:139-141). -/
def Store.GetBucketName (s : Store) : Bytes :=
  s.bucketName

/-- Seek-based exact-match lookup: the algorithm `Store.Get` and
`Store.Delete` use to locate an entry, in isolation (seek to the first key
greater than or equal to the requested one, then test for an exact match). -/
def seekLookup (b : Bucket) (key : Bytes) : Option Bytes :=
  match seek b key with
  | none => none
  | some (k, v) => if k = key then some v else none

/-- Sample codec used to exercise the store on concrete inputs: encodes a
natural number as a one-byte list. -/
def natEnc : Nat → Except String Bytes :=
  fun n => .ok [n]

/-- Sample decoder matching `natEnc`; any other shape is a decode error. -/
def natDec : Bytes → Except String Nat :=
  fun b =>
    match b with
    | [n] => .ok n
    | _ => .error "decode shape mismatch"

/-- Sample always-failing encoder, standing in for a gob encoding failure. -/
def failEnc : Nat → Except String Bytes :=
  fun _ => .error "gob: unsupported type"

theorem bytesLt_irrefl (a : Bytes) : bytesLt a a = false := by
  induction a with
  | nil => rfl
  | cons x xs ih => simp [bytesLt, ih]

theorem bytesLt_asymm (a : Bytes) :
    ∀ b : Bytes, bytesLt a b = true → bytesLt b a = false := by
  induction a with
  | nil =>
    intro b h
    cases b with
    | nil => simp [bytesLt] at h
    | cons y ys => simp [bytesLt]
  | cons x xs ih =>
    intro b h
    cases b with
    | nil => simp [bytesLt] at h
    | cons y ys =>
      by_cases hxy : x < y
      · simp [bytesLt, hxy, Nat.lt_asymm hxy]
      · by_cases hyx : y < x
        · simp [bytesLt, hxy, hyx] at h
        · simp [bytesLt, hxy, hyx] at h ⊢
          exact ih ys h

theorem bytesLt_total (a : Bytes) :
    ∀ b : Bytes, bytesLt a b = false → a ≠ b → bytesLt b a = true := by
  induction a with
  | nil =>
    intro b h hne
    cases b with
    | nil => exact absurd rfl hne
    | cons y ys => simp [bytesLt] at h
  | cons x xs ih =>
    intro b h hne
    cases b with
    | nil => simp [bytesLt]
    | cons y ys =>
      by_cases hxy : x < y
      · simp [bytesLt, hxy] at h
      · by_cases hyx : y < x
        · simp [bytesLt, hyx]
        · have hxyeq : x = y :=
            Nat.le_antisymm (Nat.le_of_not_lt hyx) (Nat.le_of_not_lt hxy)
          subst hxyeq
          simp [bytesLt, hxy] at h ⊢
          exact ih ys h (fun hc => hne (by rw [hc]))

theorem bytesLt_trans (a : Bytes) :
    ∀ b c : Bytes, bytesLt a b = true → bytesLt b c = true →
      bytesLt a c = true := by
  induction a with
  | nil =>
    intro b c h1 h2
    cases b with
    | nil => simp [bytesLt] at h1
    | cons y ys =>
      cases c with
      | nil => simp [bytesLt] at h2
      | cons z zs => simp [bytesLt]
  | cons x xs ih =>
    intro b c h1 h2
    cases b with
    | nil => simp [bytesLt] at h1
    | cons y ys =>
      cases c with
      | nil => simp [bytesLt] at h2
      | cons z zs =>
        rcases Nat.lt_trichotomy x y with hxy | hxy | hxy
        · rcases Nat.lt_trichotomy y z with hyz | hyz | hyz
          · simp [bytesLt, Nat.lt_trans hxy hyz]
          · subst hyz
            simp [bytesLt, hxy]
          · simp [bytesLt, Nat.lt_asymm hyz, hyz] at h2
        · subst hxy
          rcases Nat.lt_trichotomy x z with hxz | hxz | hxz
          · simp [bytesLt, hxz]
          · subst hxz
            simp [bytesLt] at h1 h2 ⊢
            exact ih ys zs h1 h2
          · simp [bytesLt, Nat.lt_asymm hxz, hxz] at h2
        · simp [bytesLt, Nat.lt_asymm hxy, hxy] at h1

theorem lookup_eq_none_of_forall_ne (b : Bucket) (key : Bytes)
    (h : ∀ e ∈ b, e.1 ≠ key) : lookup b key = none := by
  induction b with
  | nil => rfl
  | cons e rest ih =>
    obtain ⟨k, v⟩ := e
    have hk : k ≠ key := h (k, v) (List.mem_cons_self _ _)
    simp only [lookup, if_neg hk]
    exact ih (fun e he => h e (List.mem_cons_of_mem _ he))

theorem mem_of_lookup_eq_some (b : Bucket) (key v : Bytes)
    (h : lookup b key = some v) : (key, v) ∈ b := by
  induction b with
  | nil => simp [lookup] at h
  | cons e rest ih =>
    obtain ⟨k, w⟩ := e
    by_cases hk : k = key
    · subst hk
      simp only [lookup, if_true, eq_self_iff_true, Option.some.injEq] at h
      rw [← h]
      exact List.mem_cons_self _ _
    · simp only [lookup, if_neg hk] at h
      exact List.mem_cons_of_mem _ (ih h)

theorem seekLookup_eq_lookup (key : Bytes) :
    ∀ b : Bucket, SortedBucket b → seekLookup b key = lookup b key := by
  intro b hb
  induction b with
  | nil => rfl
  | cons e rest ih =>
    obtain ⟨k, v⟩ := e
    rw [SortedBucket, List.pairwise_cons] at hb
    obtain ⟨hhead, htail⟩ := hb
    by_cases hk : bytesLt k key = true
    · have hkne : k ≠ key := by
        intro hEq
        rw [hEq, bytesLt_irrefl] at hk
        exact Bool.false_ne_true hk
      simp only [seekLookup, seek, if_pos hk, lookup, if_neg hkne]
      exact ih htail
    · simp only [seekLookup, seek, if_neg hk, lookup]
      by_cases heq : k = key
      · simp [heq]
      · simp only [if_neg heq]
        have hnone : lookup rest key = none := by
          apply lookup_eq_none_of_forall_ne
          intro e he hEq
          exact hk (hEq ▸ hhead e he)
        rw [hnone]

theorem seek_eq_of_lookup_some (b : Bucket) (key v : Bytes)
    (hb : SortedBucket b) (hl : lookup b key = some v) :
    seek b key = some (key, v) := by
  have h := seekLookup_eq_lookup key b hb
  rw [hl] at h
  unfold seekLookup at h
  cases hs : seek b key with
  | none => rw [hs] at h; exact absurd h (by simp)
  | some e =>
    obtain ⟨k, w⟩ := e
    rw [hs] at h
    by_cases hk : k = key
    · rw [hk]
      simp [hk] at h
      rw [h]
    · simp [hk] at h

theorem seek_ne_key_of_lookup_none (b : Bucket) (key : Bytes)
    (hb : SortedBucket b) (hl : lookup b key = none) :
    ∀ k v, seek b key = some (k, v) → k ≠ key := by
  intro k v hs hk
  have h := seekLookup_eq_lookup key b hb
  rw [hl] at h
  unfold seekLookup at h
  rw [hs] at h
  simp [hk] at h

theorem lookup_bucketPut_self (key val : Bytes) :
    ∀ b : Bucket, lookup (bucketPut b key val) key = some val := by
  intro b
  induction b with
  | nil => simp [bucketPut, lookup]
  | cons e rest ih =>
    obtain ⟨k, v⟩ := e
    by_cases h1 : bytesLt key k = true
    · simp [bucketPut, h1, lookup]
    · by_cases h2 : k = key
      · simp [bucketPut, h1, h2, lookup, bytesLt_irrefl]
      · simp [bucketPut, h1, h2, lookup, ih]

theorem lookup_bucketPut_other (key val k₂ : Bytes) (hne : k₂ ≠ key) :
    ∀ b : Bucket, lookup (bucketPut b key val) k₂ = lookup b k₂ := by
  intro b
  have hne' : key ≠ k₂ := fun h => hne h.symm
  induction b with
  | nil => simp [bucketPut, lookup, hne']
  | cons e rest ih =>
    obtain ⟨k, v⟩ := e
    by_cases h1 : bytesLt key k = true
    · simp [bucketPut, h1, lookup, hne']
    · by_cases h2 : k = key
      · subst h2
        simp [bucketPut, h1, lookup, hne']
      · simp only [bucketPut, if_neg h1, if_neg h2, lookup]
        by_cases h3 : k = k₂
        · simp [h3]
        · simp [h3, ih]

theorem mem_bucketPut (key val : Bytes) :
    ∀ (b : Bucket) (e : Bytes × Bytes), e ∈ bucketPut b key val →
      e = (key, val) ∨ e ∈ b := by
  intro b
  induction b with
  | nil =>
    intro e he
    simp [bucketPut] at he
    left
    exact he
  | cons f rest ih =>
    obtain ⟨k, v⟩ := f
    intro e he
    by_cases h1 : bytesLt key k = true
    · simp only [bucketPut, if_pos h1, List.mem_cons] at he
      simp only [List.mem_cons]
      tauto
    · by_cases h2 : k = key
      · simp only [bucketPut, if_neg h1, if_pos h2, List.mem_cons] at he
        simp only [List.mem_cons]
        tauto
      · simp only [bucketPut, if_neg h1, if_neg h2, List.mem_cons] at he
        simp only [List.mem_cons]
        rcases he with h | h
        · tauto
        · rcases ih e h with h' | h' <;> tauto

theorem sorted_bucketPut (key val : Bytes) :
    ∀ b : Bucket, SortedBucket b → SortedBucket (bucketPut b key val) := by
  intro b hb
  induction b with
  | nil => simp [bucketPut, SortedBucket]
  | cons e rest ih =>
    obtain ⟨k, v⟩ := e
    rw [SortedBucket, List.pairwise_cons] at hb
    obtain ⟨hhead, htail⟩ := hb
    by_cases h1 : bytesLt key k = true
    · rw [bucketPut, if_pos h1, SortedBucket, List.pairwise_cons]
      refine ⟨?_, ?_⟩
      · intro e he
        rcases List.mem_cons.mp he with h | h
        · rw [h]; exact h1
        · exact bytesLt_trans key k e.1 h1 (hhead e h)
      · rw [SortedBucket, List.pairwise_cons] at *
        exact ⟨hhead, htail⟩
    · by_cases h2 : k = key
      · subst h2
        rw [bucketPut, if_neg h1, if_pos rfl, SortedBucket, List.pairwise_cons]
        exact ⟨hhead, htail⟩
      · rw [bucketPut, if_neg h1, if_neg h2, SortedBucket, List.pairwise_cons]
        refine ⟨?_, ih htail⟩
        intro e he
        rcases mem_bucketPut key val rest e he with h | h
        · rw [h]
          exact bytesLt_total key k
            (Bool.eq_false_iff.mpr (fun hc => h1 hc))
            (fun hc => h2 hc.symm)
        · exact hhead e h

theorem countP_eq_one_of_sorted_lookup (key : Bytes) :
    ∀ b : Bucket, SortedBucket b → ∀ v, lookup b key = some v →
      b.countP (fun e => decide (e.1 = key)) = 1 := by
  intro b hb
  induction b with
  | nil => intro v hv; simp [lookup] at hv
  | cons e rest ih =>
    obtain ⟨k, w⟩ := e
    rw [SortedBucket, List.pairwise_cons] at hb
    obtain ⟨hhead, htail⟩ := hb
    intro v hv
    by_cases hk : k = key
    · subst hk
      have hzero : List.countP (fun e => decide (e.1 = k)) rest = 0 := by
        rw [List.countP_eq_zero]
        intro e he
        simp only [decide_eq_true_eq]
        intro hEq
        have hb := hhead e he
        rw [hEq, bytesLt_irrefl] at hb
        exact Bool.false_ne_true hb
      rw [List.countP_cons, hzero]
      simp
    · rw [lookup, if_neg hk] at hv
      rw [List.countP_cons, ih htail v hv]
      simp [hk]

theorem cursorDelete_sublist (key : Bytes) :
    ∀ b : Bucket, List.Sublist (cursorDelete b key) b := by
  intro b
  induction b with
  | nil => simp [cursorDelete]
  | cons e rest ih =>
    obtain ⟨k, v⟩ := e
    by_cases h1 : bytesLt k key = true
    · rw [cursorDelete, if_pos h1]
      exact List.Sublist.cons₂ _ ih
    · rw [cursorDelete, if_neg h1]
      exact List.sublist_cons_self _ _

theorem sorted_cursorDelete (key : Bytes) (b : Bucket)
    (hb : SortedBucket b) : SortedBucket (cursorDelete b key) :=
  List.Pairwise.sublist (cursorDelete_sublist key b) hb

theorem lookup_cursorDelete_self (key : Bytes) :
    ∀ b : Bucket, SortedBucket b → lookup (cursorDelete b key) key = none := by
  intro b hb
  induction b with
  | nil => rfl
  | cons e rest ih =>
    obtain ⟨k, v⟩ := e
    rw [SortedBucket, List.pairwise_cons] at hb
    obtain ⟨hhead, htail⟩ := hb
    by_cases h1 : bytesLt k key = true
    · have hkne : k ≠ key := by
        intro hEq
        rw [hEq, bytesLt_irrefl] at h1
        exact Bool.false_ne_true h1
      rw [cursorDelete, if_pos h1, lookup, if_neg hkne]
      exact ih htail
    · rw [cursorDelete, if_neg h1]
      apply lookup_eq_none_of_forall_ne
      intro e he hEq
      have := hhead e he
      rw [hEq] at this
      exact h1 this

theorem lookup_cursorDelete_other (key k₂ : Bytes) (hne : k₂ ≠ key) :
    ∀ b : Bucket, SortedBucket b → ∀ w, lookup b key = some w →
      lookup (cursorDelete b key) k₂ = lookup b k₂ := by
  intro b hb
  induction b with
  | nil => intro w hw; simp [lookup] at hw
  | cons e rest ih =>
    obtain ⟨k, v⟩ := e
    rw [SortedBucket, List.pairwise_cons] at hb
    obtain ⟨hhead, htail⟩ := hb
    intro w hw
    by_cases hk : k = key
    · subst hk
      rw [cursorDelete, if_neg (by rw [bytesLt_irrefl]; simp), lookup,
        if_neg (fun h => hne h.symm)]
    · rw [lookup, if_neg hk] at hw
      have hlt : bytesLt k key = true := by
        have hmem := mem_of_lookup_eq_some rest key w hw
        exact hhead (key, w) hmem
      rw [cursorDelete, if_pos hlt, lookup, lookup]
      by_cases h3 : k = k₂
      · simp [h3]
      · simp only [if_neg h3]
        exact ih htail w hw

theorem Put_some_eq {V : Type} (s : Store) (enc : V → Except String Bytes)
    (key : String) (v : V) (buf : Bytes) (henc : enc v = .ok buf) :
    s.Put enc key (some v) =
      (none, { s with bucket := bucketPut s.bucket (strBytes key) buf }) := by
  simp [Store.Put, henc, dbUpdate]

theorem Put_encError_eq {V : Type} (s : Store) (enc : V → Except String Bytes)
    (key : String) (v : V) (msg : String) (henc : enc v = .error msg) :
    s.Put enc key (some v) = (some (.codecError msg), s) := by
  simp [Store.Put, henc]

theorem Get_eq_spec {V : Type} (s : Store) (dec : Bytes → Except String V)
    (key : String) (discard : Bool) (hs : SortedBucket s.bucket) :
    s.Get dec key discard =
      ((match lookup s.bucket (strBytes key) with
        | none => Except.error KVError.notFound
        | some bs =>
          if discard then Except.ok none
          else
            match dec bs with
            | .error e => Except.error (KVError.codecError e)
            | .ok x => Except.ok (some x)), s) := by
  cases hl : lookup s.bucket (strBytes key) with
  | none =>
    cases hseek : seek s.bucket (strBytes key) with
    | none => simp [Store.Get, dbView, hseek]
    | some e =>
      obtain ⟨k, v⟩ := e
      have hne := seek_ne_key_of_lookup_none _ _ hs hl k v hseek
      simp [Store.Get, dbView, hseek, hne]
  | some bs =>
    have hseek := seek_eq_of_lookup_some _ _ _ hs hl
    cases discard with
    | true => simp [Store.Get, dbView, hseek]
    | false =>
      cases hd : dec bs with
      | error e => simp [Store.Get, dbView, hseek, hd]
      | ok x => simp [Store.Get, dbView, hseek, hd]

theorem Delete_eq_spec (s : Store) (key : String) (hs : SortedBucket s.bucket) :
    s.Delete key =
      (match lookup s.bucket (strBytes key) with
       | none => (some KVError.notFound, s)
       | some _ =>
         (none, { s with bucket := cursorDelete s.bucket (strBytes key) })) := by
  cases hl : lookup s.bucket (strBytes key) with
  | none =>
    cases hseek : seek s.bucket (strBytes key) with
    | none => simp [Store.Delete, dbUpdate, hseek]
    | some e =>
      obtain ⟨k, v⟩ := e
      have hne := seek_ne_key_of_lookup_none _ _ hs hl k v hseek
      simp [Store.Delete, dbUpdate, hseek, hne]
  | some bs =>
    have hseek := seek_eq_of_lookup_some _ _ _ hs hl
    simp [Store.Delete, dbUpdate, hseek]

/-- C1: for every key (including the empty string) and every value the codec
round-trips, `Put(k, V)` succeeds and a subsequent `Get(k, &out)` with a
destination of the same shape succeeds and yields `out == V`. -/
theorem C1_put_get_roundtrip {V : Type} (s : Store)
    (enc : V → Except String Bytes) (dec : Bytes → Except String V)
    (key : String) (v : V) (buf : Bytes) (hs : SortedBucket s.bucket)
    (henc : enc v = .ok buf) (hdec : dec buf = .ok v) :
    (s.Put enc key (some v)).1 = none ∧
    ((s.Put enc key (some v)).2.Get dec key false).1 =
      .ok (some v) := by
  rw [Put_some_eq s enc key v buf henc]
  refine ⟨rfl, ?_⟩
  have hsorted : SortedBucket (bucketPut s.bucket (strBytes key) buf) :=
    sorted_bucketPut _ _ _ hs
  rw [Get_eq_spec _ dec key false hsorted]
  simp [lookup_bucketPut_self, hdec]

/-- C1 witness: the hypotheses hold for the sample codec at the empty-string
key on the empty store, and the round trip yields the stored value. -/
theorem C1_witness :
    SortedBucket ([] : Bucket) ∧ natEnc 5 = .ok [5] ∧ natDec [5] = .ok 5 ∧
    ((Store.mk [] []).Put natEnc "" (some 5)).1 = none ∧
    (((Store.mk [] []).Put natEnc "" (some 5)).2.Get natDec "" false).1 =
      .ok (some 5) := by
  refine ⟨by decide, rfl, rfl, ?_⟩
  exact C1_put_get_roundtrip (Store.mk [] []) natEnc natDec "" 5 [5]
    (by decide) rfl rfl

/-- C2: a key absent from the collection makes `Get` return NotFound for
every destination and `Delete` return NotFound; a present key makes neither
operation return NotFound. -/
theorem C2_missing_key_notFound {V : Type} (s : Store)
    (dec : Bytes → Except String V) (key : String) (discard : Bool)
    (hs : SortedBucket s.bucket) :
    (lookup s.bucket (strBytes key) = none →
      (s.Get dec key discard).1 = .error .notFound ∧
      (s.Delete key).1 = some .notFound) ∧
    (∀ v, lookup s.bucket (strBytes key) = some v →
      (s.Get dec key discard).1 ≠ .error .notFound ∧
      (s.Delete key).1 ≠ some .notFound) := by
  constructor
  · intro hl
    rw [Get_eq_spec s dec key discard hs, Delete_eq_spec s key hs]
    simp [hl]
  · intro v hl
    rw [Get_eq_spec s dec key discard hs, Delete_eq_spec s key hs]
    simp [hl]
    cases discard with
    | true => simp
    | false =>
      cases hd : dec v with
      | error e => simp [hd]
      | ok x => simp [hd]

/-- C2 witness: on a store holding only key `"a"`, `Get "b"` and
`Delete "b"` return NotFound, while `Get "a"` and `Delete "a"` do not. -/
theorem C2_witness :
    SortedBucket [([97], [5])] ∧
    ((Store.mk [([97], [5])] []).Get natDec "b" false).1 =
      .error .notFound ∧
    ((Store.mk [([97], [5])] []).Delete "b").1 = some .notFound ∧
    ((Store.mk [([97], [5])] []).Get natDec "a" false).1 ≠
      .error .notFound ∧
    ((Store.mk [([97], [5])] []).Delete "a").1 ≠ some .notFound := by
  refine ⟨by decide, ?_, ?_, ?_, ?_⟩
  · exact ((C2_missing_key_notFound (Store.mk [([97], [5])] []) natDec "b"
      false (by decide)).1 (by decide)).1
  · exact ((C2_missing_key_notFound (Store.mk [([97], [5])] []) natDec "b"
      false (by decide)).1 (by decide)).2
  · exact ((C2_missing_key_notFound (Store.mk [([97], [5])] []) natDec "a"
      false (by decide)).2 [5] (by decide)).1
  · exact ((C2_missing_key_notFound (Store.mk [([97], [5])] []) natDec "a"
      false (by decide)).2 [5] (by decide)).2

/-- C3: on a sorted bucket, the seek-then-test-exact-match algorithm used by
`Get` and `Delete` coincides with direct exact-match lookup in the
key-to-bytes mapping: it finds an entry iff the requested key is present and
never yields the value of a different (e.g. strictly greater) key. -/
theorem C3_seek_lookup_equiv (b : Bucket) (key : Bytes)
    (hs : SortedBucket b) :
    seekLookup b key = lookup b key :=
  seekLookup_eq_lookup key b hs

/-- C3 witness: on a sorted bucket containing only the two-byte key
`[97, 98]`, seeking its one-byte strict proper initial segment `[97]` agrees
with direct lookup, both returning nothing. -/
theorem C3_witness :
    SortedBucket [([97, 98], [2])] ∧
    seekLookup [([97, 98], [2])] [97] = lookup [([97, 98], [2])] [97] :=
  ⟨by decide, C3_seek_lookup_equiv [([97, 98], [2])] [97] (by decide)⟩

/-- C4: `Put(k, nil)` returns BadValue for every encoder (so before any
encoding or transaction) and leaves the store unchanged, hence every
subsequent `Get` behaves exactly as it did before the call. -/
theorem C4_put_nil_badValue {V : Type} (s : Store)
    (enc : V → Except String Bytes) (key : String)
    (dec : Bytes → Except String V) (key₂ : String) (discard : Bool) :
    s.Put enc key none = (some .badValue, s) ∧
    ((s.Put enc key none).2).Get dec key₂ discard = s.Get dec key₂ discard :=
  ⟨rfl, rfl⟩

/-- C5: overwriting a key leaves exactly one entry under it and a subsequent
`Get` yields the second value (last write wins). -/
theorem C5_overwrite {V : Type} (s : Store) (enc : V → Except String Bytes)
    (dec : Bytes → Except String V) (key : String) (v₁ v₂ : V)
    (b₁ b₂ : Bytes) (hs : SortedBucket s.bucket) (h1 : enc v₁ = .ok b₁)
    (h2 : enc v₂ = .ok b₂) (hdec : dec b₂ = .ok v₂) :
    (((s.Put enc key (some v₁)).2.Put enc key (some v₂)).2.bucket.countP
      (fun e => decide (e.1 = strBytes key)) = 1) ∧
    ((((s.Put enc key (some v₁)).2.Put enc key (some v₂)).2.Get dec key
      false).1 = .ok (some v₂)) := by
  rw [Put_some_eq s enc key v₁ b₁ h1]
  rw [Put_some_eq _ enc key v₂ b₂ h2]
  have hsorted :
      SortedBucket (bucketPut (bucketPut s.bucket (strBytes key) b₁)
        (strBytes key) b₂) :=
    sorted_bucketPut _ _ _ (sorted_bucketPut _ _ _ hs)
  have hlook :
      lookup (bucketPut (bucketPut s.bucket (strBytes key) b₁)
        (strBytes key) b₂) (strBytes key) = some b₂ :=
    lookup_bucketPut_self _ _ _
  constructor
  · exact countP_eq_one_of_sorted_lookup _ _ hsorted b₂ hlook
  · rw [Get_eq_spec _ dec key false hsorted]
    simp [hlook, hdec]

/-- C5 witness: storing 5 then 7 under key `"a"` on the empty store leaves
one entry under `"a"` and `Get` returns 7. -/
theorem C5_witness :
    SortedBucket ([] : Bucket) ∧ natEnc 5 = .ok [5] ∧ natEnc 7 = .ok [7] ∧
    natDec [7] = .ok 7 ∧
    ((((Store.mk [] []).Put natEnc "a" (some 5)).2.Put natEnc "a"
      (some 7)).2.bucket.countP
      (fun e => decide (e.1 = strBytes "a")) = 1) ∧
    (((((Store.mk [] []).Put natEnc "a" (some 5)).2.Put natEnc "a"
      (some 7)).2.Get natDec "a" false).1 = .ok (some 7)) := by
  refine ⟨by decide, rfl, rfl, rfl, ?_⟩
  exact C5_overwrite (Store.mk [] []) natEnc natDec "a" 5 7 [5] [7]
    (by decide) rfl rfl rfl

/-- C6: with the discard sentinel as destination, `Get` succeeds on a
present key with an answer independent of the decoder (no decoding), and
still returns NotFound on an absent key: the not-found check comes first. -/
theorem C6_get_discard {V : Type} (s : Store) (key : String)
    (hs : SortedBucket s.bucket) :
    (∀ (dec : Bytes → Except String V) v,
      lookup s.bucket (strBytes key) = some v →
      s.Get dec key true = (.ok none, s)) ∧
    (∀ dec : Bytes → Except String V,
      lookup s.bucket (strBytes key) = none →
      s.Get dec key true = (.error .notFound, s)) := by
  constructor
  · intro dec v hl
    rw [Get_eq_spec s dec key true hs]
    simp [hl]
  · intro dec hl
    rw [Get_eq_spec s dec key true hs]
    simp [hl]

/-- C6 witness: on a store holding key `"a"`, a discard `Get "a"` succeeds
without decoding and a discard `Get "b"` returns NotFound. -/
theorem C6_witness :
    SortedBucket [([97], [5])] ∧
    (Store.mk [([97], [5])] []).Get natDec "a" true =
      (.ok none, Store.mk [([97], [5])] []) ∧
    (Store.mk [([97], [5])] []).Get natDec "b" true =
      (.error .notFound, Store.mk [([97], [5])] []) := by
  refine ⟨by decide, ?_, ?_⟩
  · exact (C6_get_discard (Store.mk [([97], [5])] []) "a" (by decide)).1
      natDec [5] (by decide)
  · exact (C6_get_discard (Store.mk [([97], [5])] []) "b" (by decide)).2
      natDec (by decide)

/-- C7: deleting a present key succeeds and removes exactly that entry —
afterwards its lookup is gone while every other key maps to its old value;
deleting an absent key returns NotFound and leaves the store untouched. -/
theorem C7_delete_frame (s : Store) (key : String)
    (hs : SortedBucket s.bucket) :
    (∀ v, lookup s.bucket (strBytes key) = some v →
      (s.Delete key).1 = none ∧
      lookup (s.Delete key).2.bucket (strBytes key) = none ∧
      ∀ k₂, k₂ ≠ strBytes key →
        lookup (s.Delete key).2.bucket k₂ = lookup s.bucket k₂) ∧
    (lookup s.bucket (strBytes key) = none →
      s.Delete key = (some .notFound, s)) := by
  constructor
  · intro v hl
    rw [Delete_eq_spec s key hs]
    simp only [hl]
    refine ⟨by trivial, lookup_cursorDelete_self _ _ hs, ?_⟩
    intro k₂ hk₂
    exact lookup_cursorDelete_other _ _ hk₂ _ hs v hl
  · intro hl
    rw [Delete_eq_spec s key hs]
    simp [hl]

/-- C7 witness: on a store holding keys `"a"` and `"b"`, `Delete "a"`
succeeds, removes `"a"`, keeps `"b"` intact, and `Delete "c"` returns
NotFound leaving the store unchanged. -/
theorem C7_witness :
    SortedBucket [([97], [5]), ([98], [6])] ∧
    ((Store.mk [([97], [5]), ([98], [6])] []).Delete "a").1 = none ∧
    lookup ((Store.mk [([97], [5]), ([98], [6])] []).Delete "a").2.bucket
      [97] = none ∧
    lookup ((Store.mk [([97], [5]), ([98], [6])] []).Delete "a").2.bucket
      [98] = lookup [([97], [5]), ([98], [6])] [98] ∧
    (Store.mk [([97], [5]), ([98], [6])] []).Delete "c" =
      (some .notFound, Store.mk [([97], [5]), ([98], [6])] []) := by
  have h := C7_delete_frame (Store.mk [([97], [5]), ([98], [6])] []) "a"
    (by decide)
  have h₂ := (C7_delete_frame (Store.mk [([97], [5]), ([98], [6])] []) "c"
    (by decide)).2 (by decide)
  obtain ⟨ha, hb, hc⟩ := h.1 [5] (by decide)
  exact ⟨by decide, ha, hb, hc [98] (by decide), h₂⟩

/-- C8: an encoding failure makes `Put` return the codec's error verbatim
with the store left entirely unchanged (no write transaction). -/
theorem C8_put_encode_error {V : Type} (s : Store)
    (enc : V → Except String Bytes) (key : String) (v : V) (msg : String)
    (henc : enc v = .error msg) :
    s.Put enc key (some v) = (some (.codecError msg), s) :=
  Put_encError_eq s enc key v msg henc

/-- C8 witness: the always-failing encoder makes `Put` surface exactly its
message and leave the store unchanged. -/
theorem C8_witness :
    failEnc 3 = .error "gob: unsupported type" ∧
    (Store.mk [([97], [5])] []).Put failEnc "a" (some 3) =
      (some (.codecError "gob: unsupported type"),
        Store.mk [([97], [5])] []) :=
  ⟨rfl, C8_put_encode_error (Store.mk [([97], [5])] []) failEnc "a" 3
    "gob: unsupported type" rfl⟩

/-- C9: a store built by `Open` reports exactly the byte conversion of the
bucket name passed in, and `Put`, `Get` and `Delete` never change the value
`GetBucketName` returns. -/
theorem C9_bucketName_stable {V : Type} (path : String) (ex : Option Bucket)
    (name : String) (s : Store) (enc : V → Except String Bytes)
    (dec : Bytes → Except String V) (key : String) (value : Option V)
    (discard : Bool) :
    (Open path ex name).GetBucketName = strBytes name ∧
    ((s.Put enc key value).2).GetBucketName = s.GetBucketName ∧
    ((s.Get dec key discard).2).GetBucketName = s.GetBucketName ∧
    ((s.Delete key).2).GetBucketName = s.GetBucketName := by
  refine ⟨rfl, ?_, rfl, ?_⟩
  · cases value with
    | none => rfl
    | some v => cases henc : enc v <;> simp [Store.Put, henc, dbUpdate,
        Store.GetBucketName]
  · cases hseek : seek s.bucket (strBytes key) with
    | none => simp [Store.Delete, dbUpdate, hseek, Store.GetBucketName]
    | some e =>
      obtain ⟨k, v⟩ := e
      by_cases hk : k = strBytes key <;>
        simp [Store.Delete, dbUpdate, hseek, hk, Store.GetBucketName]

/-- C10: `Get` never modifies the store, whatever the key, destination and
decoder outcome: the store after the call equals the store before it. -/
theorem C10_get_pure {V : Type} (s : Store) (dec : Bytes → Except String V)
    (key : String) (discard : Bool) :
    (s.Get dec key discard).2 = s :=
  rfl

end Bboltkv
